import Mathlib

set_option maxHeartbeats 1000000

/-! Verification of the shortscan repository (an IIS short-filename
    enumeration tool).  The Go sources in `pkg/levenshtein`,
    `pkg/shortutil` and `pkg/shortscan` are shallow-embedded below.
    Go strings are modelled as `List Char` (Go `range` over a string
    iterates runes; all inputs relevant to the claims are ASCII, where
    byte indexing and rune indexing agree).  Machine integers are
    modelled as `Nat`/`Int` with explicit wrap-around where the Go code
    can overflow. -/

/-- Go string, modelled as its sequence of runes. -/
abbrev GoStr := List Char

namespace Levenshtein

/-- Reference definition of edit distance with unit costs, by recursion on
    the heads of both lists.  This is the specification against which the
    imperative rolling-array algorithm of `pkg/levenshtein` is proved. -/
def lev : GoStr → GoStr → Nat
  | [], ys => ys.length
  | _ :: xs, [] => xs.length + 1
  | x :: xs, y :: ys =>
      min (min (lev xs (y :: ys) + 1) (lev (x :: xs) ys + 1))
        (lev xs ys + if y = x then 0 else 1)
termination_by a b => a.length + b.length

/-- Inner loop of `Distance` (`for _, cb := range b`): walks the remaining
    characters of `b` together with the remaining entries of the previous
    row.  `fj1` is the not-yet-overwritten value `f[j-1]` of the previous
    row, `prev` the freshly written value at `j-1`, and the fourth argument
    the previous-row entries from index `j` on. -/
def nextRowAux (ca : Char) : GoStr → Nat → Nat → List Nat → List Nat
  | [], _, _, _ => []
  | _ :: _, _, _, [] => []
  | cb :: bs, fj1, prev, fj :: rest =>
      let mn := min (min (fj + 1) (prev + 1)) (if cb ≠ ca then fj1 + 1 else fj1)
      mn :: nextRowAux ca bs fj mn rest

/-- One outer-loop iteration of `Distance` (`for _, ca := range a`):
    `j := 1`, `fj1 := f[0]`, `f[0]++`, then the inner sweep. -/
def nextRow (ca : Char) (b : GoStr) (row : List Nat) : List Nat :=
  match row with
  | [] => []
  | f0 :: rest => (f0 + 1) :: nextRowAux ca b f0 (f0 + 1) rest

/-- `Distance` from `pkg/levenshtein/levenshtein.go`: the O(|b|)-space
    rolling-array edit distance.  The initial row is `[0, …, |b|]`
    (`f[j] = j`), each character of `a` rewrites the row in place, and the
    result is the last entry `f[len(f)-1]`. -/
def Distance (a b : GoStr) : Nat :=
  let f := List.range (b.length + 1)
  (a.foldl (fun row ca => nextRow ca b row) f).getLastD 0

/-- Row of reference distances: entry `k` is `lev xs (pre ++ take k bs)`,
    i.e. the distances from `xs` to the successive extensions of `pre` by
    characters of `bs`. -/
def rowSpec (xs : GoStr) : GoStr → GoStr → List Nat
  | pre, [] => [lev xs pre]
  | pre, cb :: bs => lev xs pre :: rowSpec xs (pre ++ [cb]) bs

/-- Tail of `rowSpec`: the reference distances for the nonempty
    extensions of `pre` by characters of the third argument. -/
def rowTail (xs : GoStr) : GoStr → GoStr → List Nat
  | _, [] => []
  | pre, cb :: bs => lev xs (pre ++ [cb]) :: rowTail xs (pre ++ [cb]) bs

end Levenshtein

namespace Shortutil

/-- Character-wise action of `shortReplacer` from `pkg/shortutil`:
    spaces and dots are deleted, the seven specials `: + , ; = [ ]` become
    an underscore, everything else is kept. -/
def shortReplace (c : Char) : GoStr :=
  if c = ' ' ∨ c = '.' then []
  else if c = ':' ∨ c = '+' ∨ c = ',' ∨ c = ';' ∨ c = '=' ∨ c = '[' ∨ c = ']' then ['_']
  else [c]

/-- `shortReplacer.Replace`: all patterns are single characters, so the
    replacer acts independently on each character. -/
def replacerRun (s : GoStr) : GoStr := s.flatMap shortReplace

/-- Go `strings.ToUpper`, restricted to ASCII (where it agrees with
    `Char.toUpper` applied rune-wise). -/
def goToUpper (s : GoStr) : GoStr := s.map Char.toUpper

/-- `Gen8dot3` from `pkg/shortutil/shortutil.go`: upper-case and replace
    specials in stem and extension, report whether a short name was needed,
    and truncate the stem to 6 and the extension to 3 characters. -/
def Gen8dot3 (file ext : GoStr) : Bool × GoStr × GoStr :=
  let fu := goToUpper file
  let fr := replacerRun fu
  let eu := goToUpper ext
  let er := replacerRun eu
  let r : Bool := decide (8 < file.length) || decide (3 < ext.length)
      || decide (fu ≠ fr) || decide (eu ≠ er)
  (r, fr.take (min fr.length 6), er.take (min er.length 3))

/-- Accumulator loop of `Checksum`: `ck = ck*0x25 + uint16(c)` over the
    runes of `f`, in 16-bit unsigned arithmetic. -/
def checksumAcc (f : GoStr) : Nat :=
  f.foldl (fun ck c => (ck * 0x25 + c.toNat % 65536) % 65536) 0

/-- Two's-complement wrap of an integer into the `int32` range
    `[-2^31, 2^31)`, i.e. the value Go computes for an overflowing
    `int32` multiplication or subtraction. -/
def wrap32 (z : Int) : Int := (z + 2 ^ 31) % 2 ^ 32 - 2 ^ 31

/-- Go conversion `float64(x)` of an `int32` value.  Every integer of
    magnitude at most `2^31` is exactly representable in IEEE binary64
    (whose integer-exact range extends to `2^53`), so the conversion is
    the identity on the values reaching it. -/
def float64OfInt32 (z : Int) : Int := z

/-- Go conversion `int32(f)` of a (here: integral) float64 value.  When
    the value lies outside the `int32` range the behaviour is not defined
    by the Go specification, modelled as `none`. -/
def int32OfFloat64 (z : Int) : Option Int :=
  if -(2 ^ 31) ≤ z ∧ z ≤ 2 ^ 31 - 1 then some z else none

/-- The intermediate `t := int32(math.Abs(float64(int32(ck) * 314159269)))`
    of `Checksum`, for a 16-bit accumulator value `ck`:
    a wrapping 32-bit multiply, an exact float64 absolute value, and the
    conversion back to `int32`. -/
def checksumT (ck : Nat) : Option Int :=
  int32OfFloat64 ((Int.natAbs (float64OfInt32 (wrap32 ((ck : Int) * 314159269))) : Int))

/-- Go conversion `uint64(t)` of an `int32` value (two's complement). -/
def uint64OfInt32 (z : Int) : Nat := (z % 2 ^ 64).toNat

/-- Go conversion `int32(u)` of a `uint64` value (truncate, then read as
    two's complement). -/
def int32OfUint64 (u : Nat) : Int := wrap32 (u : Int)

/-- The line `t -= int32(((uint64(t) * uint64(1152921497)) >> 60) * uint64(1000000007))`
    of `Checksum`, with the subtraction wrapping in `int32`. -/
def checksumStep2 (t : Int) : Int :=
  wrap32 (t - int32OfUint64 (uint64OfInt32 t * 1152921497 % 2 ^ 64 >>> 60 * 1000000007 % 2 ^ 64))

/-- Final nibble swap of both checksum algorithms:
    `ck = (ck&0xf000)>>12 | (ck&0x0f00)>>4 | (ck&0x00f0)<<4 | (ck&0x000f)<<12`. -/
def nibbleSwap (ck : Nat) : Nat :=
  (ck &&& 0xf000) >>> 12 ||| (ck &&& 0x0f00) >>> 4 ||| (ck &&& 0x00f0) <<< 4 ||| (ck &&& 0x000f) <<< 12

/-- Upper-case hexadecimal digit. -/
def hexDigit (n : Nat) : Char :=
  if n < 10 then Char.ofNat (n + '0'.toNat) else Char.ofNat (n - 10 + 'A'.toNat)

/-- Go `fmt.Sprintf("%04X", ck)` for a 16-bit value. -/
def hex4 (n : Nat) : GoStr :=
  [hexDigit (n >>> 12 &&& 15), hexDigit (n >>> 8 &&& 15), hexDigit (n >>> 4 &&& 15), hexDigit (n &&& 15)]

/-- `Checksum` from `pkg/shortutil/shortutil.go` (the post-Win2003
    algorithm).  Returns `none` only if the float64-to-int32 conversion
    were to fall outside the `int32` range (proved impossible below). -/
def Checksum (f : GoStr) : Option GoStr :=
  let ck := checksumAcc f
  (checksumT ck).map fun t =>
    let t2 := checksumStep2 t
    let ck2 := (t2 % 65536).toNat
    hex4 (nibbleSwap ck2)

end Shortutil

namespace Shortscan

/-- The retry loop of `fetch` in `pkg/shortscan/shortscan.go`
    (`for t = 0; t < 4; t++ { res, rerr = hc.Do(req); if err == nil { break } … }`).
    `reqErrIsNil` is whether the error `err` of `http.NewRequest` is nil —
    it is the variable the loop's break condition actually tests (`rerr`,
    the transport error of the attempt, is never tested).  `att t` is the
    response of attempt `t` (`none` = transport failure).  Returns the
    final `res` together with the final value of `t` (added to the retry
    counter). -/
def fetchLoop (reqErrIsNil : Bool) (att : Nat → Option Nat) : Nat → Nat → Option Nat → Option Nat × Nat
  | t, 0, res => (res, t)
  | t, fuel + 1, _ =>
      let res := att t
      if reqErrIsNil then (res, t) else fetchLoop reqErrIsNil att (t + 1) fuel res

/-- `fetch` as reachable at run time: `http.NewRequest` succeeded (a
    failure is `log.Fatal`), so `err == nil` holds when the loop tests it. -/
def fetch (att : Nat → Option Nat) : Option Nat × Nat :=
  fetchLoop true att 0 4 none

/-- Modelled from the spec: `fetch` retries on transport error up to 4
    attempts and surfaces the error (a `none` response) only when the
    response is still nil after the last attempt. -/
def specFetchRetry (att : Nat → Option Nat) : Nat → Nat → Option Nat
  | _, 0 => none
  | t, fuel + 1 =>
      match att t with
      | some r => some r
      | none => specFetchRetry att (t + 1) fuel

/-- Modelled from the spec: the overall result of a retried fetch. -/
def specFetch (att : Nat → Option Nat) : Option Nat :=
  specFetchRetry att 0 4

/-- The `for i := 0; i < 2 && x < y; i++ { char += "?" }` loop of the
    percent workaround in `enumerate`: neither `x` nor `y` changes inside
    the loop. -/
def percentQLoop (x y : Nat) : Nat → GoStr → GoStr
  | 0, char => char
  | fuel + 1, char => if x < y then percentQLoop x y fuel (char ++ ['?']) else char

/-- The percent workaround of `enumerate`: when the candidate character is
    `%`, append `?` characters depending on the current slot length
    (`x, y = len(br.ext), 1` in extension mode, `x, y = len(br.file), 4`
    in stem mode). -/
def percentWorkaround (extMode : Bool) (fileLen extLen : Nat) (c : Char) : GoStr :=
  if c = '%' then
    let x := if extMode then extLen else fileLen
    let y := if extMode then 1 else 4
    percentQLoop x y 2 [c]
  else [c]

/-- The in-flight position in the enumeration search tree
    (`baseRequest` of `pkg/shortscan/shortscan.go`). -/
structure baseRequest where
  url : GoStr
  file : GoStr
  tilde : GoStr
  ext : GoStr

/-- One character step of `enumerate`: apply the percent workaround, then
    `br.ext += char` in extension mode or `br.file += char` in stem mode
    (extension mode is `len(br.ext) > 0`, computed at entry). -/
def appendChar (br : baseRequest) (c : Char) : baseRequest :=
  let extMode := decide (0 < br.ext.length)
  let char := percentWorkaround extMode br.file.length br.ext.length c
  if extMode then { br with ext := br.ext ++ char } else { br with file := br.file ++ char }

/-- The base requests `enumerate` is invoked on:  the roots built in
    `Scan` (empty stem, empty extension), recursion on an extended request
    when the depth guard `(extMode && len(br.ext) < 4) || (!extMode && len(br.file) < 6)`
    holds, and extension-discovery spawns (`nr.ext = "."`) from an extended
    request whose extension is empty.  The status checks guarding the
    recursive calls only restrict this set further, so it is a sound
    over-approximation for invariants. -/
inductive invoked (chars : List Char) : baseRequest → Prop
  | root (url tilde : GoStr) : invoked chars ⟨url, [], tilde, []⟩
  | recurse (br : baseRequest) (c : Char) : invoked chars br → c ∈ chars →
      ((0 < br.ext.length ∧ (appendChar br c).ext.length < 4) ∨
       (br.ext.length = 0 ∧ (appendChar br c).file.length < 6)) →
      invoked chars (appendChar br c)
  | spawn (br : baseRequest) (c : Char) : invoked chars br → c ∈ chars →
      (appendChar br c).ext.length = 0 →
      invoked chars { appendChar br c with ext := ['.'] }

/-- The base requests reachable in the enumeration search tree: those
    `enumerate` is invoked on, plus every character-extension built inside
    an invocation. -/
def reach (chars : List Char) (br : baseRequest) : Prop :=
  invoked chars br ∨ ∃ br2 c, invoked chars br2 ∧ c ∈ chars ∧ br = appendChar br2 c

/-- Responses seen by one (suffix, method) round of the vulnerability
    probe in `Scan`: the four negative-stability requests, the four
    positive `*~i*` probes, and the `*~0*` disambiguation requests
    (`none` = transport failure of that request). -/
structure ProbeOracle where
  neg : Nat → Option Nat
  pos : Nat → Option Nat
  disamb : Nat → Option Nat

/-- Outcome of one (suffix, method) round of the vulnerability probe. -/
inductive MethodOutcome
  | skipped
  | nilDeref
  | finished (tildes : List Nat) (statusPos statusNeg : Nat)
  deriving DecidableEq

/-- The negative-stability loop of `Scan` (`for i := 0; i < 4; i++`):
    a transport failure or a differing status skips the method
    (`continue methodEscape`, modelled as `none`); otherwise the shared
    negative status is returned. -/
def negLoop (o : ProbeOracle) : Nat → Nat → Nat → Option Nat
  | 0, _, statusNeg => some statusNeg
  | fuel + 1, i, statusNeg =>
      match o.neg i with
      | none => none
      | some status =>
          if statusNeg ≠ 0 ∧ status ≠ statusNeg then none
          else negLoop o fuel (i + 1) status

/-- The positive-probe loop of `Scan` (`for i := 1; i <= 4; i++`).  A
    transport failure of the `*~i*` request silently moves to the next
    `i`.  On a candidate hit the `*~0*` disambiguation request is issued
    with its error discarded (`res, _ := fetch(…)`), and `res.StatusCode`
    is read unconditionally: a transport failure there leaves `res` nil
    and dereferencing it panics, modelled as `Except.error`. -/
def posLoop (o : ProbeOracle) (statusNeg : Nat) :
    Nat → Nat → List Nat → Nat × Nat → Except Unit (List Nat × Nat × Nat)
  | 0, _, tildes, mk => .ok (tildes, mk.1, mk.2)
  | fuel + 1, i, tildes, mk =>
      match o.pos i with
      | none => posLoop o statusNeg fuel (i + 1) tildes mk
      | some statusPos =>
          if statusPos ≠ statusNeg then
            match o.disamb i with
            | none => .error ()
            | some s0 =>
                if statusPos = s0 then posLoop o statusNeg fuel (i + 1) tildes mk
                else posLoop o statusNeg fuel (i + 1) (tildes ++ [i]) (statusPos, statusNeg)
          else posLoop o statusNeg fuel (i + 1) tildes mk

/-- One (suffix, method) round of the vulnerability probe in `Scan`. -/
def methodProbe (o : ProbeOracle) : MethodOutcome :=
  match negLoop o 4 0 0 with
  | none => .skipped
  | some statusNeg =>
      match posLoop o statusNeg 4 1 [] (0, 0) with
      | .error _ => .nilDeref
      | .ok (tildes, mkPos, mkNeg) => .finished tildes mkPos mkNeg

/-- The rainbow-table magic value (`const rainbowMagic`). -/
def rainbowMagic : GoStr := "#SHORTSCAN#".data

/-- The wordlist-reading loop of `Run`, restricted to the state that
    decides the rainbow flag: `n` counts the lines actually added to the
    wordlist, and a line equal to the magic while `n == 0` sets the flag.
    Blank lines and `#` comments are skipped without touching `n`.
    (Fatal exits on malformed rainbow lines do not change the flag and are
    not modelled.) -/
def wordlistLoad : List GoStr → Nat → Bool → Bool
  | [], _, rb => rb
  | line :: rest, n, rb =>
      if n = 0 ∧ line = rainbowMagic then wordlistLoad rest n true
      else if line.length = 0 ∨ line.head? = some '#' then wordlistLoad rest n rb
      else wordlistLoad rest (n + 1) rb

/-- Final value of `wc.isRainbow` after reading the stream. -/
def isRainbowFlag (lines : List GoStr) : Bool :=
  wordlistLoad lines 0 false

/-- Lines the reader skips without counting them: blank lines and lines
    starting with `#`. -/
def skippableLine (l : GoStr) : Bool :=
  l.isEmpty || decide (l.head? = some '#')

/-- Formalisation of the claim's wording: the first non-blank line of the
    stream. -/
def firstNonBlankLine (lines : List GoStr) : Option GoStr :=
  lines.find? fun l => !l.isEmpty

/-- Go `strings.TrimSuffix`: remove one copy of the suffix if present. -/
def trimSuffix (s suffix : GoStr) : GoStr :=
  if suffix <:+ s then s.take (s.length - suffix.length) else s

/-- Go `strings.Contains`. -/
def goContains (s pat : GoStr) : Bool :=
  decide (pat <:+: s)

/-- URL normalisation at the top of the per-URL loop in `Scan`:
    `url = strings.TrimSuffix(url, "/") + "/"`, then `https://` is
    prepended when the result does not contain `://`. -/
def scanUrl (url : GoStr) : GoStr :=
  let u := trimSuffix url ['/'] ++ ['/']
  if goContains u [':', '/', '/'] then u else "https://".data ++ u

/-- Resolution of the `auto` autocomplete mode in the preflight of `Scan`:
    `method` iff fetching the base URL with method `_` succeeded with
    status 405, else `status` (`preflight` is the response, `none` =
    transport failure). -/
def resolveAutocomplete (preflight : Option Nat) : String :=
  match preflight with
  | some 405 => "method"
  | _ => "status"

/-- Evolution of the global `args.Autocomplete` over the URLs processed by
    `Scan`: for each URL, if the mode is still `auto` the preflight probe
    with method `_` runs (`o i` is its response) and overwrites the global;
    otherwise no probe is made.  Each trace entry records the mode used for
    that URL and whether the probe was performed. -/
def scanModes (o : Nat → Option Nat) : Nat → Nat → String → List (String × Bool)
  | 0, _, _ => []
  | n + 1, i, mode =>
      if mode = "auto" then
        (resolveAutocomplete (o i), true) :: scanModes o n (i + 1) (resolveAutocomplete (o i))
      else
        (mode, false) :: scanModes o n (i + 1) mode

end Shortscan

/-- Value of the embedded primary checksum on `index.html` (sanity check
    that the embedding computes end to end). -/
theorem checksum_index_html_value :
    Shortutil.Checksum "index.html".data = some "2EF5".data := rfl

/-- Value of the embedded primary checksum on the empty string. -/
theorem checksum_empty_value :
    Shortutil.Checksum "".data = some "0000".data := rfl

/-- Value of `Gen8dot3` on the stem `PROGRA.M FILES` and extension `htm`. -/
theorem gen8dot3_progra_val :
    Shortutil.Gen8dot3 "PROGRA.M FILES".data "htm".data =
      (true, "PROGRA".data, "HTM".data) := rfl

/-- Bound on the 16-bit accumulator of `Checksum`: it stays below `2^16`
    on every input. -/
theorem checksumAcc_lt (f : GoStr) : Shortutil.checksumAcc f < 65536 := by
  unfold Shortutil.checksumAcc
  suffices h : ∀ (l : GoStr) (a : Nat), a < 65536 →
      l.foldl (fun ck c => (ck * 0x25 + c.toNat % 65536) % 65536) a < 65536 by
    exact h f 0 (by norm_num)
  intro l
  induction l with
  | nil => intro a ha; simpa using ha
  | cons c cs ih => intro a ha; exact ih _ (Nat.mod_lt _ (by norm_num))

/-- Range of `wrap32`: the `int32` interval. -/
theorem wrap32_bounds (z : Int) :
    -(2 ^ 31) ≤ Shortutil.wrap32 z ∧ Shortutil.wrap32 z < 2 ^ 31 := by
  unfold Shortutil.wrap32
  constructor <;> omega

/-- The wrapped 32-bit product `int32(ck) * 314159269` never equals
    `-2^31` for a 16-bit `ck`: since the multiplier is odd, the product is
    `≡ 2^31 (mod 2^32)` only for `ck ≡ 2^31 (mod 2^32)`, which exceeds
    16 bits. -/
theorem wrap32_mul_ne (ck : Nat) (h : ck < 65536) :
    Shortutil.wrap32 ((ck : Int) * 314159269) ≠ -(2 ^ 31) := by
  intro hw
  unfold Shortutil.wrap32 at hw
  rw [show ((2:Int) ^ 31) = 2147483648 by norm_num,
    show ((2:Int) ^ 32) = 4294967296 by norm_num] at hw
  have h0 : ((ck : Int) * 314159269 + 2147483648) % 4294967296 = 0 := by linarith [hw]
  have h1 : ((4294967296 : Int)) ∣ (ck : Int) * 314159269 + 2147483648 :=
    Int.dvd_of_emod_eq_zero h0
  obtain ⟨q, hq⟩ := h1
  have h3 : (2147483648 : Nat) ∣ ck * 314159269 := by
    have h2 : ((2147483648 : Int)) ∣ (ck : Int) * 314159269 :=
      ⟨2 * q - 1, by linear_combination hq⟩
    rw [show ((ck : Int) * 314159269) = (((ck * 314159269 : Nat) : Int)) by push_cast; ring,
      show ((2147483648 : Int)) = ((2147483648 : Nat) : Int) by norm_num,
      Int.natCast_dvd_natCast] at h2
    exact h2
  have hcop : Nat.Coprime 2147483648 314159269 := by decide
  have h4 : (2147483648 : Nat) ∣ ck := hcop.dvd_of_dvd_mul_right h3
  rcases Nat.eq_zero_or_pos ck with rfl | hpos
  · norm_num at h0
  · have hle := Nat.le_of_dvd hpos h4
    have hlt : ck < 2147483648 := lt_of_lt_of_le h (by norm_num)
    exact absurd hle (Nat.not_le.mpr hlt)

/-- Unfolding lemma: the modelled float64 conversion is the identity. -/
theorem float64OfInt32_eq (z : Int) : Shortutil.float64OfInt32 z = z := rfl

/-- Values inside the `int32` range convert back exactly. -/
theorem int32OfFloat64_of_mem (z : Int) (h1 : -(2 ^ 31) ≤ z) (h2 : z ≤ 2 ^ 31 - 1) :
    Shortutil.int32OfFloat64 z = some z := by
  unfold Shortutil.int32OfFloat64
  exact if_pos ⟨h1, h2⟩

/-- C6: every accumulator value of the primary `Checksum` is 16-bit, and
    for every 16-bit accumulator value `ck` the intermediate
    `t := int32(math.Abs(float64(int32(ck) * 314159269)))` equals the
    absolute value of the wrap-around signed 32-bit product
    `int32(ck) * 314159269`: the float64 route is exact because the
    absolute value never leaves the `int32` range. -/
theorem claim_C6_checksum_abs_exact :
    (∀ f : GoStr, Shortutil.checksumAcc f < 65536) ∧
    ∀ ck : Nat, ck < 65536 →
      Shortutil.checksumT ck =
        some ((Shortutil.wrap32 ((ck : Int) * 314159269)).natAbs : Int) := by
  refine ⟨checksumAcc_lt, fun ck h => ?_⟩
  have hne := wrap32_mul_ne ck h
  obtain ⟨hlo, hhi⟩ := wrap32_bounds ((ck : Int) * 314159269)
  have hcond : -(2 ^ 31 : Int) ≤ ((Shortutil.wrap32 ((ck : Int) * 314159269)).natAbs : Int) ∧
      ((Shortutil.wrap32 ((ck : Int) * 314159269)).natAbs : Int) ≤ 2 ^ 31 - 1 := by
    constructor <;> omega
  have e1 : Shortutil.checksumT ck =
      Shortutil.int32OfFloat64
        ((Int.natAbs (Shortutil.float64OfInt32 (Shortutil.wrap32 ((ck : Int) * 314159269))) : Int)) := rfl
  rw [e1, float64OfInt32_eq]
  exact int32OfFloat64_of_mem _ hcond.1 hcond.2

/-- Witness for C6 at the accumulator value of `index.html` (4875). -/
theorem claim_C6_checksum_abs_exact_witness :
    Shortutil.checksumAcc "index.html".data < 65536 ∧
    Shortutil.checksumT 4875 = some 1776888297 := by
  refine ⟨claim_C6_checksum_abs_exact.1 "index.html".data, ?_⟩
  have h := claim_C6_checksum_abs_exact.2 4875 (by norm_num)
  rw [h]
  rfl

/-- C1: contrary to the claim, `fetch` never retries: the loop tests the
    request-creation error `err` (necessarily nil at that point) instead
    of the transport error `rerr`, so it breaks after the first attempt
    with `t = 0`, and a first-attempt transport failure is surfaced
    immediately even when a retry would have succeeded (the spec-modelled
    retry loop returns the second attempt's response). -/
theorem claim_C1_fetch_single_attempt :
    (∀ att : Nat → Option Nat, Shortscan.fetch att = (att 0, 0)) ∧
    Shortscan.fetch (fun t => if t = 0 then none else some 200) = (none, 0) ∧
    Shortscan.specFetch (fun t => if t = 0 then none else some 200) = some 200 :=
  ⟨fun _ => rfl, rfl, rfl⟩

/-- C2 counterexample: with a 4-character stem and candidate `%`, the
    enumerator appends no `?` at all, and the slot length after the
    percent is 5, not the cap 6 the claim requires. -/
theorem claim_C2_counterexample :
    Shortscan.percentWorkaround false 4 0 '%' = ['%'] ∧
    4 + (Shortscan.percentWorkaround false 4 0 '%').length ≠ 6 := by
  refine ⟨rfl, ?_⟩
  rw [show Shortscan.percentWorkaround false 4 0 '%' = ['%'] from rfl]
  norm_num

/-- C2 (amended): when the candidate character is `%`, the enumerator
    appends exactly two `?` in stem mode when the stem has fewer than 4
    characters and nothing otherwise; in extension mode (where the
    extension always starts with `.` and is nonempty) it never appends. -/
theorem claim_C2_percent_expansion (fileLen extLen : Nat) :
    (Shortscan.percentWorkaround false fileLen extLen '%' =
      if fileLen < 4 then ['%', '?', '?'] else ['%']) ∧
    (1 ≤ extLen → Shortscan.percentWorkaround true fileLen extLen '%' = ['%']) := by
  constructor
  · by_cases h : fileLen < 4 <;>
      simp [Shortscan.percentWorkaround, Shortscan.percentQLoop, h]
  · intro h
    have h2 : ¬ extLen < 1 := by omega
    simp [Shortscan.percentWorkaround, Shortscan.percentQLoop, h2]

/-- Witness for C2 (amended) at stem length 2 and extension length 1. -/
theorem claim_C2_percent_expansion_witness :
    Shortscan.percentWorkaround false 2 1 '%' = ['%', '?', '?'] ∧
    Shortscan.percentWorkaround true 2 1 '%' = ['%'] := by
  have h := claim_C2_percent_expansion 2 1
  refine ⟨?_, h.2 (by norm_num)⟩
  have h1 := h.1
  simpa using h1

/-- C3: contrary to the claim, not every transport failure during vuln
    probing skips the current method: if a positive `*~i*` probe gets a
    status differing from `statusNeg` and the following `*~0*`
    disambiguation request fails at transport level, `Scan` dereferences
    the nil response (`res.StatusCode` after `res, _ := fetch(…)`) and the
    process panics. -/
theorem claim_C3_disambiguation_failure_panics :
    Shortscan.methodProbe
      { neg := fun _ => some 404, pos := fun _ => some 200, disamb := fun _ => none } =
      Shortscan.MethodOutcome.nilDeref := rfl

/-- C5 counterexample: `Gen8dot3` on `("PROGRA.M FILES", "htm")` does not
    return the stem `PROGRAM` the claim states. -/
theorem claim_C5_counterexample :
    Shortutil.Gen8dot3 "PROGRA.M FILES".data "htm".data ≠
      (true, "PROGRAM".data, "HTM".data) := by
  rw [gen8dot3_progra_val]
  decide

/-- C5 (amended): `Gen8dot3("PROGRA.M FILES", "htm")` returns
    `(true, "PROGRA", "HTM")`: spaces and dots are removed, the result is
    upper-cased, the extension is upper-cased, and the stem is truncated
    to 6 characters. -/
theorem claim_C5_gen8dot3_progra :
    Shortutil.Gen8dot3 "PROGRA.M FILES".data "htm".data =
      (true, "PROGRA".data, "HTM".data) := gen8dot3_progra_val

/-- Resolution of the `auto` mode never yields `auto` again. -/
theorem resolveAutocomplete_ne_auto (p : Option Nat) :
    Shortscan.resolveAutocomplete p ≠ "auto" := by
  unfold Shortscan.resolveAutocomplete
  split <;> decide

/-- A non-`auto` mode is a fixed point of the per-URL loop: no preflight
    probe is ever performed again. -/
theorem scanModes_fixed (o : Nat → Option Nat) (mode : String) (h : mode ≠ "auto") :
    ∀ n i, Shortscan.scanModes o n i mode = List.replicate n (mode, false) := by
  intro n
  induction n with
  | zero => intro i; rfl
  | succ m ih =>
      intro i
      unfold Shortscan.scanModes
      rw [if_neg h, ih (i + 1)]
      rfl

/-- C10: when the autocomplete mode starts as `auto`, the preflight probe
    with method `_` runs exactly once, on the first URL; its result
    (`method` on a 405, else `status`) overwrites the global mode, and
    every subsequent URL in the same run — recursed subdirectories and
    later user-supplied URLs alike — reuses that mode and performs no
    further preflight probe. -/
theorem claim_C10_auto_resolved_once (o : Nat → Option Nat) (n : Nat) (h : 1 ≤ n) :
    Shortscan.scanModes o n 0 "auto" =
      (Shortscan.resolveAutocomplete (o 0), true) ::
        List.replicate (n - 1) (Shortscan.resolveAutocomplete (o 0), false) ∧
    Shortscan.resolveAutocomplete (o 0) ≠ "auto" := by
  refine ⟨?_, resolveAutocomplete_ne_auto (o 0)⟩
  match n, h with
  | m + 1, _ =>
    unfold Shortscan.scanModes
    rw [if_pos rfl, scanModes_fixed o _ (resolveAutocomplete_ne_auto (o 0)) m 1]
    simp

/-- Witness for C10: three URLs with a 405-answering preflight. -/
theorem claim_C10_auto_resolved_once_witness :
    Shortscan.scanModes (fun _ => some 405) 3 0 "auto" =
      ("method", true) :: List.replicate 2 ("method", false) ∧
    ("method" : String) ≠ "auto" := by
  have h := claim_C10_auto_resolved_once (fun _ => some 405) 3 (by norm_num)
  simpa [Shortscan.resolveAutocomplete] using h

/-- Once a data line has been counted (`n ≠ 0`) the rainbow flag can no
    longer change. -/
theorem wordlistLoad_pos (ls : List GoStr) : ∀ (n : Nat) (rb : Bool), n ≠ 0 →
    Shortscan.wordlistLoad ls n rb = rb := by
  induction ls with
  | nil => intro n rb h; rfl
  | cons l rest ih =>
      intro n rb h
      unfold Shortscan.wordlistLoad
      rw [if_neg (by simp [h])]
      split
      · exact ih n rb h
      · exact ih (n + 1) rb (by omega)

/-- Exact characterisation of the flag while no data line has been
    counted: it becomes set iff the magic occurs among the leading
    blank-or-comment lines. -/
theorem wordlistLoad_zero (ls : List GoStr) : ∀ rb : Bool,
    Shortscan.wordlistLoad ls 0 rb =
      (rb || decide (Shortscan.rainbowMagic ∈ ls.takeWhile Shortscan.skippableLine)) := by
  induction ls with
  | nil => intro rb; simp [Shortscan.wordlistLoad]
  | cons l rest ih =>
      intro rb
      by_cases hm : l = Shortscan.rainbowMagic
      · subst hm
        unfold Shortscan.wordlistLoad
        rw [if_pos ⟨rfl, rfl⟩, ih true]
        have hs : Shortscan.skippableLine Shortscan.rainbowMagic = true := by decide
        simp [List.takeWhile_cons, hs]
      · unfold Shortscan.wordlistLoad
        rw [if_neg (by simp [hm])]
        by_cases hsk : (l.length = 0 ∨ l.head? = some '#')
        · rw [if_pos hsk, ih rb]
          have hs : Shortscan.skippableLine l = true := by
            rcases hsk with h1 | h1
            · simp [Shortscan.skippableLine, List.isEmpty_iff, List.length_eq_zero.mp h1]
            · simp [Shortscan.skippableLine, h1]
          have hm2 : Shortscan.rainbowMagic ≠ l := Ne.symm hm
          simp [List.takeWhile_cons, hs, hm2]
        · rw [if_neg hsk, wordlistLoad_pos rest 1 rb (by omega)]
          have h1 : l ≠ [] := by
            intro e; exact hsk (Or.inl (by simp [e]))
          have h2 : ¬ (l.head? = some '#') := fun e => hsk (Or.inr e)
          have hs : Shortscan.skippableLine l = false := by
            simp [Shortscan.skippableLine, List.isEmpty_iff, h1, h2]
          simp [List.takeWhile_cons, hs]

/-- C4 counterexample: on the stream `["#c", "#SHORTSCAN#"]` the rainbow
    flag ends up set, although the first non-blank line is the comment
    `#c`, not the magic: comment lines are skipped without being counted,
    so a later magic line still triggers the flag. -/
theorem claim_C4_counterexample :
    Shortscan.isRainbowFlag [['#', 'c'], Shortscan.rainbowMagic] = true ∧
    Shortscan.firstNonBlankLine [['#', 'c'], Shortscan.rainbowMagic] = some ['#', 'c'] ∧
    (['#', 'c'] : GoStr) ≠ Shortscan.rainbowMagic := by
  refine ⟨rfl, rfl, by decide⟩

/-- C4 (amended): the rainbow flag ends up set iff the stream contains a
    line equal to the magic `#SHORTSCAN#` preceded only by blank lines and
    `#`-comment lines (equivalently, iff the magic occurs among the
    leading skippable lines); the first non-blank line itself need not be
    the magic. -/
theorem claim_C4_rainbow_flag_iff (lines : List GoStr) :
    Shortscan.isRainbowFlag lines = true ↔
      Shortscan.rainbowMagic ∈ lines.takeWhile Shortscan.skippableLine := by
  unfold Shortscan.isRainbowFlag
  rw [wordlistLoad_zero]
  simp

/-- Length of the percent workaround result in stem mode: one character,
    or three when the stem is shorter than 4. -/
theorem percentWorkaround_stem_len (fileLen extLen : Nat) (c : Char) :
    (Shortscan.percentWorkaround false fileLen extLen c).length = 1 ∨
      ((Shortscan.percentWorkaround false fileLen extLen c).length = 3 ∧ fileLen < 4) := by
  unfold Shortscan.percentWorkaround
  by_cases hc : c = '%'
  · rw [if_pos hc]
    by_cases h4 : fileLen < 4 <;> simp [Shortscan.percentQLoop, h4]
  · rw [if_neg hc]; left; rfl

/-- Length of the percent workaround result in extension mode: always one
    character once the extension is nonempty. -/
theorem percentWorkaround_ext_len (fileLen extLen : Nat) (c : Char) (h : 1 ≤ extLen) :
    (Shortscan.percentWorkaround true fileLen extLen c).length = 1 := by
  unfold Shortscan.percentWorkaround
  by_cases hc : c = '%'
  · rw [if_pos hc]
    have h2 : ¬ extLen < 1 := by omega
    simp [Shortscan.percentQLoop, h2]
  · rw [if_neg hc]; rfl

/-- Shape of `appendChar` in stem mode. -/
theorem appendChar_of_ext_nil (br : Shortscan.baseRequest) (c : Char) (h : br.ext = []) :
    (Shortscan.appendChar br c).ext = [] ∧
    (Shortscan.appendChar br c).file =
      br.file ++ Shortscan.percentWorkaround false br.file.length br.ext.length c := by
  unfold Shortscan.appendChar
  simp [h]

/-- Shape of `appendChar` in extension mode. -/
theorem appendChar_of_ext_cons (br : Shortscan.baseRequest) (c : Char) (h : 0 < br.ext.length) :
    (Shortscan.appendChar br c).file = br.file ∧
    (Shortscan.appendChar br c).ext =
      br.ext ++ Shortscan.percentWorkaround true br.file.length br.ext.length c := by
  unfold Shortscan.appendChar
  simp [h]

/-- Invariant of the base requests `enumerate` is invoked on: in stem mode
    the stem has room left (fewer than 6 characters); in extension mode
    the extension starts with `.`, has fewer than 4 characters, and the
    stem is complete with at most 6. -/
theorem invoked_inv (chars : List Char) (br : Shortscan.baseRequest)
    (h : Shortscan.invoked chars br) :
    (br.ext = [] ∧ br.file.length < 6) ∨
      (br.ext.head? = some '.' ∧ br.ext.length < 4 ∧ br.file.length ≤ 6) := by
  induction h with
  | root url tilde => exact Or.inl ⟨rfl, by norm_num⟩
  | recurse br c hinv hc hguard ih =>
      rcases hguard with ⟨hpos, hlt⟩ | ⟨hnil, hlt⟩
      · right
        rcases ih with ⟨he, _⟩ | ⟨hh, hl, hf⟩
        · rw [he] at hpos; simp at hpos
        · obtain ⟨hfile, hext⟩ := appendChar_of_ext_cons br c hpos
          obtain ⟨t, ht⟩ : ∃ t, br.ext = '.' :: t := by
            cases hbe : br.ext with
            | nil => rw [hbe] at hh; simp at hh
            | cons a t => rw [hbe] at hh; simp at hh; exact ⟨t, by rw [hh]⟩
          refine ⟨?_, hlt, ?_⟩
          · rw [hext, ht]; rfl
          · rw [hfile]; exact hf
      · left
        obtain ⟨hext, _⟩ := appendChar_of_ext_nil br c (List.length_eq_zero.mp hnil)
        exact ⟨hext, hlt⟩
  | spawn br c hinv hc hext0 ih =>
      right
      have hbnil : br.ext = [] := by
        by_contra hne
        have hpos : 0 < br.ext.length := List.length_pos.mpr hne
        obtain ⟨_, hext⟩ := appendChar_of_ext_cons br c hpos
        rw [hext] at hext0
        have := percentWorkaround_ext_len br.file.length br.ext.length c hpos
        rw [List.length_append] at hext0
        omega
      rcases ih with ⟨_, hflt⟩ | ⟨hh, _, _⟩
      · obtain ⟨_, hfile⟩ := appendChar_of_ext_nil br c hbnil
        refine ⟨rfl, by norm_num, ?_⟩
        show (Shortscan.appendChar br c).file.length ≤ 6
        rw [hfile, List.length_append]
        rcases percentWorkaround_stem_len br.file.length br.ext.length c with h1 | ⟨h3, h4⟩
        · omega
        · omega
      · rw [hbnil] at hh; simp at hh

/-- Character appends preserve the claimed slot bounds. -/
theorem appendChar_good (br : Shortscan.baseRequest) (c : Char)
    (h : (br.ext = [] ∧ br.file.length < 6) ∨
      (br.ext.head? = some '.' ∧ br.ext.length < 4 ∧ br.file.length ≤ 6)) :
    (Shortscan.appendChar br c).file.length ≤ 6 ∧
      ((Shortscan.appendChar br c).ext = [] ∨
        ((Shortscan.appendChar br c).ext.head? = some '.' ∧
          (Shortscan.appendChar br c).ext.length ≤ 4)) := by
  rcases h with ⟨hnil, hlt⟩ | ⟨hh, hl, hf⟩
  · obtain ⟨hext, hfile⟩ := appendChar_of_ext_nil br c hnil
    refine ⟨?_, Or.inl hext⟩
    rw [hfile, List.length_append]
    rcases percentWorkaround_stem_len br.file.length br.ext.length c with h1 | ⟨h3, h4⟩
    · omega
    · omega
  · have hpos : 0 < br.ext.length := by
      cases hbe : br.ext with
      | nil => rw [hbe] at hh; simp at hh
      | cons a t => simp
    obtain ⟨hfile, hext⟩ := appendChar_of_ext_cons br c hpos
    obtain ⟨t, ht⟩ : ∃ t, br.ext = '.' :: t := by
      cases hbe : br.ext with
      | nil => rw [hbe] at hh; simp at hh
      | cons a t => rw [hbe] at hh; simp at hh; exact ⟨t, by rw [hh]⟩
    have hw := percentWorkaround_ext_len br.file.length br.ext.length c hpos
    refine ⟨by rw [hfile]; exact hf, Or.inr ⟨?_, ?_⟩⟩
    · rw [hext, ht]; rfl
    · rw [hext, List.length_append, hw]; omega

/-- C7: every base request reachable in the enumeration search tree —
    through character appends, the percent workaround expansion,
    extension spawning and recursion — has a stem of at most 6 characters
    and an extension that is either empty or a `.` followed by at most 3
    characters. -/
theorem claim_C7_base_request_bounds (chars : List Char) (br : Shortscan.baseRequest)
    (h : Shortscan.reach chars br) :
    br.file.length ≤ 6 ∧
      (br.ext = [] ∨ (br.ext.head? = some '.' ∧ br.ext.length ≤ 4)) := by
  rcases h with hi | ⟨br2, c, hi, hc, rfl⟩
  · rcases invoked_inv chars br hi with ⟨hnil, hlt⟩ | ⟨hh, hl, hf⟩
    · exact ⟨by omega, Or.inl hnil⟩
    · exact ⟨hf, Or.inr ⟨hh, by omega⟩⟩
  · exact appendChar_good br2 c (invoked_inv chars br2 hi)

/-- Witness for C7: the root request of a scan of `https://x/` with
    tilde `~1`. -/
theorem claim_C7_base_request_bounds_witness :
    Shortscan.reach ['A'] ⟨"https://x/".data, [], "~1".data, []⟩ ∧
      (([] : GoStr).length ≤ 6 ∧
        (([] : GoStr) = [] ∨ (([] : GoStr).head? = some '.' ∧ ([] : GoStr).length ≤ 4))) := by
  have hr : Shortscan.reach ['A'] ⟨"https://x/".data, [], "~1".data, []⟩ :=
    Or.inl (Shortscan.invoked.root "https://x/".data "~1".data)
  exact ⟨hr, claim_C7_base_request_bounds ['A'] _ hr⟩

/-- `strings.TrimSuffix(url, "/") + "/"` keeps a slash-terminated URL
    unchanged and appends a slash otherwise. -/
theorem trimSuffix_slash (url : GoStr) :
    Shortscan.trimSuffix url ['/'] ++ ['/'] =
      if ['/'] <:+ url then url else url ++ ['/'] := by
  unfold Shortscan.trimSuffix
  by_cases h : ['/'] <:+ url
  · rw [if_pos h, if_pos h]
    obtain ⟨pre, hpre⟩ := h
    rw [← hpre, List.length_append]
    simp [List.take_left]
  · rw [if_neg h, if_neg h]

/-- An infix of `l ++ [c]` is an infix of `l` or a suffix of `l ++ [c]`. -/
theorem infix_concat_split (p l : GoStr) (c : Char) (h : p <:+: l ++ [c]) :
    p <:+: l ∨ p <:+ l ++ [c] := by
  obtain ⟨s, t, hst⟩ := h
  rcases List.eq_nil_or_concat t with rfl | ⟨t2, d, rfl⟩
  · right
    exact ⟨s, by simpa using hst⟩
  · left
    have hst2 : (s ++ p ++ t2) ++ [d] = l ++ [c] := by
      simpa [List.append_assoc] using hst
    obtain ⟨h1, _⟩ := List.append_inj' hst2 rfl
    exact ⟨s, t2, h1⟩

/-- Appending the trailing slash cannot introduce a `://` occurrence. -/
theorem contains_scheme_preserved (url : GoStr) (h : ¬ [':', '/', '/'] <:+: url)
    (hne : ¬ ['/'] <:+ url) : ¬ [':', '/', '/'] <:+: url ++ ['/'] := by
  intro hin
  rcases infix_concat_split _ _ _ hin with h1 | h1
  · exact h h1
  · obtain ⟨s, hs⟩ := h1
    have hs2 : (s ++ [':', '/']) ++ ['/'] = url ++ ['/'] := by
      simpa [List.append_assoc] using hs
    obtain ⟨h2, _⟩ := List.append_inj' hs2 rfl
    exact hne ⟨s ++ [':'], by simpa [List.append_assoc] using h2⟩

/-- C8 counterexample: the input `example.com//` is scanned as
    `https://example.com//`, which ends in two slashes, not exactly one. -/
theorem claim_C8_counterexample :
    Shortscan.scanUrl "example.com//".data = "https://example.com//".data ∧
    ¬ (['/'] <:+ Shortscan.scanUrl "example.com//".data ∧
        ¬ (['/', '/'] <:+ Shortscan.scanUrl "example.com//".data)) := by
  have e : Shortscan.scanUrl "example.com//".data = "https://example.com//".data := rfl
  refine ⟨e, ?_⟩
  rw [e]
  rintro ⟨h1, h2⟩
  exact h2 (by decide)

/-- C8 (amended): the scanned URL always ends with at least one `/`
    (`TrimSuffix` removes only one trailing slash, so inputs ending in
    several slashes keep the extras), and when the input contains no `://`
    the scanned URL begins with `https://`. -/
theorem claim_C8_scan_url (url : GoStr) :
    ['/'] <:+ Shortscan.scanUrl url ∧
      (Shortscan.goContains url [':', '/', '/'] = false →
        "https://".data <+: Shortscan.scanUrl url) := by
  constructor
  · unfold Shortscan.scanUrl
    dsimp only
    split
    · exact ⟨Shortscan.trimSuffix url ['/'], rfl⟩
    · exact ⟨"https://".data ++ Shortscan.trimSuffix url ['/'], by simp⟩
  · intro hc
    have hnc : ¬ [':', '/', '/'] <:+: url := by
      simpa [Shortscan.goContains] using hc
    have hu : ¬ [':', '/', '/'] <:+: (Shortscan.trimSuffix url ['/'] ++ ['/']) := by
      rw [trimSuffix_slash]
      split
      · exact hnc
      · next h => exact contains_scheme_preserved url hnc h
    unfold Shortscan.scanUrl
    dsimp only
    rw [if_neg (by simpa [Shortscan.goContains] using hu)]
    exact ⟨Shortscan.trimSuffix url ['/'] ++ ['/'], rfl⟩

/-- Witness for C8 (amended) on the scheme-less input `example.org`. -/
theorem claim_C8_scan_url_witness :
    ['/'] <:+ Shortscan.scanUrl "example.org".data ∧
      "https://".data <+: Shortscan.scanUrl "example.org".data := by
  have h := claim_C8_scan_url "example.org".data
  exact ⟨h.1, h.2 (by decide)⟩

/-- Edit distance to the empty string is the length. -/
theorem lev_nil_right (zs : GoStr) : Levenshtein.lev zs [] = zs.length := by
  cases zs <;> simp [Levenshtein.lev]

/-- Rebalancing identity for the nine-term minimum appearing in the
    snoc-snoc recurrence of the edit distance. -/
theorem min9_shuffle (a1 a2 a3 a4 a5 a6 a7 a8 a9 d1 d2 : Nat) :
    min (min (min (min (a1+1) (a4+1)) (a7+d2) + 1) (min (min (a2+1) (a5+1)) (a8+d2) + 1))
        (min (min (a3+1) (a6+1)) (a9+d2) + d1)
    = min (min (min (min (a1+1) (a2+1)) (a3+d1) + 1) (min (min (a4+1) (a5+1)) (a6+d1) + 1))
        (min (min (a7+1) (a8+1)) (a9+d1) + d2) := by
  apply le_antisymm <;>
    (simp only [← min_add_add_right, le_min_iff, min_le_iff]; omega)

/-- Snoc-snoc recurrence for `lev`: the dynamic-programming step the
    rolling-array algorithm performs, proved against the head recursion. -/
theorem lev_snoc_snoc (ca cb : Char) : ∀ (xs t : GoStr),
    Levenshtein.lev (xs ++ [ca]) (t ++ [cb]) =
      min (min (Levenshtein.lev xs (t ++ [cb]) + 1) (Levenshtein.lev (xs ++ [ca]) t + 1))
        (Levenshtein.lev xs t + if cb = ca then 0 else 1)
  | [], [] => by simp [Levenshtein.lev]
  | [], y :: t => by
      have ih := lev_snoc_snoc ca cb [] t
      simp only [List.nil_append, List.cons_append, Levenshtein.lev, lev_nil_right,
        List.length_append, List.length_cons, List.length_nil] at ih ⊢
      split_ifs at ih ⊢ <;> omega
  | x :: xs, [] => by
      have ih := lev_snoc_snoc ca cb xs []
      simp only [List.nil_append, List.cons_append, Levenshtein.lev, lev_nil_right,
        List.length_append, List.length_cons, List.length_nil] at ih ⊢
      split_ifs at ih ⊢ <;> omega
  | x :: xs, y :: t => by
      have ih1 := lev_snoc_snoc ca cb xs (y :: t)
      have ih2 := lev_snoc_snoc ca cb (x :: xs) t
      have ih3 := lev_snoc_snoc ca cb xs t
      simp only [List.nil_append, List.cons_append, Levenshtein.lev] at ih1 ih2 ih3 ⊢
      rw [ih1, ih2, ih3]
      exact min9_shuffle _ _ _ _ _ _ _ _ _ _ _
termination_by xs t => xs.length + t.length

/-- Head form of `rowSpec`. -/
theorem rowSpec_eq_cons (xs : GoStr) : ∀ (pre b : GoStr),
    Levenshtein.rowSpec xs pre b = Levenshtein.lev xs pre :: Levenshtein.rowTail xs pre b
  | _, [] => rfl
  | pre, cb :: bs => by
      unfold Levenshtein.rowSpec Levenshtein.rowTail
      rw [rowSpec_eq_cons xs (pre ++ [cb]) bs]

/-- The inner sweep turns the reference row tail for `xs` into the one for
    `xs ++ [ca]`. -/
theorem nextRowAux_spec (ca : Char) (xs : GoStr) : ∀ (b2 pre : GoStr),
    Levenshtein.nextRowAux ca b2 (Levenshtein.lev xs pre) (Levenshtein.lev (xs ++ [ca]) pre)
        (Levenshtein.rowTail xs pre b2) =
      Levenshtein.rowTail (xs ++ [ca]) pre b2
  | [], pre => rfl
  | cb :: bs, pre => by
      have ih := nextRowAux_spec ca xs bs (pre ++ [cb])
      have hmn :
          min (min (Levenshtein.lev xs (pre ++ [cb]) + 1) (Levenshtein.lev (xs ++ [ca]) pre + 1))
            (if cb ≠ ca then Levenshtein.lev xs pre + 1 else Levenshtein.lev xs pre) =
          Levenshtein.lev (xs ++ [ca]) (pre ++ [cb]) := by
        rw [lev_snoc_snoc]
        by_cases h : cb = ca <;> simp [h]
      unfold Levenshtein.rowTail Levenshtein.nextRowAux
      dsimp only
      rw [hmn, ih]

/-- One outer iteration turns the reference row for `xs` into the one for
    `xs ++ [ca]`. -/
theorem nextRow_spec (ca : Char) (xs b : GoStr) :
    Levenshtein.nextRow ca b (Levenshtein.rowSpec xs [] b) =
      Levenshtein.rowSpec (xs ++ [ca]) [] b := by
  rw [rowSpec_eq_cons, rowSpec_eq_cons]
  have h0 : Levenshtein.lev xs [] + 1 = Levenshtein.lev (xs ++ [ca]) [] := by
    rw [lev_nil_right, lev_nil_right, List.length_append]
    rfl
  simp only [Levenshtein.nextRow]
  rw [h0, nextRowAux_spec ca xs b []]

/-- Folding the outer loop over `rest` extends the processed part of `a`. -/
theorem foldRows_spec (b : GoStr) : ∀ (rest xs : GoStr),
    List.foldl (fun row ca => Levenshtein.nextRow ca b row) (Levenshtein.rowSpec xs [] b) rest =
      Levenshtein.rowSpec (xs ++ rest) [] b
  | [], xs => by simp
  | ca :: rest, xs => by
      rw [List.foldl_cons, nextRow_spec ca xs b, foldRows_spec b rest (xs ++ [ca])]
      simp

/-- The initial row `[0, …, |b|]` is the reference row of the empty
    string. -/
theorem rowSpec_nil_start : ∀ (b pre : GoStr),
    Levenshtein.rowSpec [] pre b = List.range' pre.length (b.length + 1)
  | [], pre => by simp [Levenshtein.rowSpec, Levenshtein.lev, List.range']
  | cb :: bs, pre => by
      unfold Levenshtein.rowSpec
      rw [rowSpec_nil_start bs (pre ++ [cb])]
      simp [Levenshtein.lev, List.range', List.length_append]

/-- The initial row of `Distance` as a reference row. -/
theorem range_eq_rowSpec (b : GoStr) :
    List.range (b.length + 1) = Levenshtein.rowSpec [] [] b := by
  rw [rowSpec_nil_start b []]
  simp [List.range_eq_range']

/-- The last entry of a reference row is the distance to the whole of its
    column string. -/
theorem rowSpec_last (xs : GoStr) : ∀ (b pre : GoStr) (d : Nat),
    (Levenshtein.rowSpec xs pre b).getLastD d = Levenshtein.lev xs (pre ++ b)
  | [], pre, d => by simp [Levenshtein.rowSpec]
  | cb :: bs, pre, d => by
      unfold Levenshtein.rowSpec
      rw [List.getLastD_cons, rowSpec_last xs bs (pre ++ [cb]) (Levenshtein.lev xs pre)]
      simp

/-- The rolling-array `Distance` computes the reference edit distance. -/
theorem Distance_eq_lev (a b : GoStr) :
    Levenshtein.Distance a b = Levenshtein.lev a b := by
  unfold Levenshtein.Distance
  dsimp only
  rw [range_eq_rowSpec b, foldRows_spec b a [], List.nil_append, rowSpec_last a b [] 0]
  simp

/-- The reference edit distance is symmetric. -/
theorem lev_comm : ∀ (a b : GoStr), Levenshtein.lev a b = Levenshtein.lev b a
  | [], [] => rfl
  | [], y :: ys => by simp [Levenshtein.lev, lev_nil_right]
  | x :: xs, [] => by simp [Levenshtein.lev, lev_nil_right]
  | x :: xs, y :: ys => by
      have ih1 := lev_comm xs (y :: ys)
      have ih2 := lev_comm (x :: xs) ys
      have ih3 := lev_comm xs ys
      simp only [Levenshtein.lev] at ih1 ih2 ih3 ⊢
      by_cases h : y = x
      · subst h
        simp only [if_pos rfl]
        omega
      · have h2 : ¬ x = y := fun e => h e.symm
        rw [if_neg h, if_neg h2]
        omega
termination_by a b => a.length + b.length

/-- C9: the Levenshtein `Distance` of `pkg/levenshtein` is symmetric:
    `Distance(a, b) = Distance(b, a)` for all strings. -/
theorem claim_C9_distance_symmetric (a b : GoStr) :
    Levenshtein.Distance a b = Levenshtein.Distance b a := by
  rw [Distance_eq_lev, Distance_eq_lev, lev_comm]

/-- Value check of the embedded `Distance` on the classic example. -/
theorem distance_kitten_sitting :
    Levenshtein.Distance "kitten".data "sitting".data = 3 := rfl
